import Mathlib

/-!
Verification of the blind-search optimizer in `solutions.py` / `main.py`.

The core under verification is `BlindSearchSolution.solve` (solutions.py,
lines 69-100): it generates `point_count` random values per axis
(`random_range`, axis-major), then scans candidates in index order,
keeping a running best value (initialized to `np.inf`) and appending
`(arg[0], arg[1], calculated_value)` to `best_points` whenever the newly
computed value is strictly below the running best.

Shallow embedding choices:
* Python floats become `FVal`: NaN, -infinity, a finite rational, or
  +infinity.  `FVal.lt` / `FVal.le` model IEEE-754 comparison semantics
  (any comparison involving NaN is false), which is what Python's `<`
  on floats implements.
* Candidate coordinates are rationals (the generated samples are always
  ordinary finite floats; claims about fixed candidate sequences use
  finite numbers).
* `np.random.rand(n)` is modelled by an externally supplied list of
  draws (one list per axis), making the randomness an explicit input.
* Python `IndexError` (out-of-range list indexing, in particular the
  hard-coded `arg[1]` in the trace append of line 96) is modelled with
  `Option`: `none` is an aborted run.
-/

/-- A Python/IEEE-754 double as far as ordering is concerned: NaN,
-infinity, a finite value (kept exact as a rational), or +infinity. -/
inductive FVal where
  | nan : FVal
  | negInf : FVal
  | fin : ℚ → FVal
  | inf : FVal
deriving DecidableEq, Repr

/-- IEEE-754 `<` (Python's `<` on floats): every comparison involving
NaN is false; otherwise -infinity < finite < +infinity. -/
def FVal.lt : FVal → FVal → Bool
  | .nan, _ => false
  | _, .nan => false
  | .negInf, .negInf => false
  | .negInf, _ => true
  | _, .negInf => false
  | .fin a, .fin b => decide (a < b)
  | .fin _, .inf => true
  | .inf, _ => false

/-- IEEE-754 `<=` (Python's `<=` on floats): every comparison involving
NaN is false; otherwise the usual extended-real order. -/
def FVal.le : FVal → FVal → Bool
  | .nan, _ => false
  | _, .nan => false
  | .negInf, _ => true
  | _, .negInf => false
  | .fin a, .fin b => decide (a ≤ b)
  | .fin _, .inf => true
  | .inf, .fin _ => false
  | .inf, .inf => true

/-- `Solution.random_range` (solutions.py line 30):
`(value_max - value_min) * np.random.rand(n) + value_min`, with the
output of `np.random.rand(n)` supplied explicitly as the list `u`. -/
def random_range (u : List ℚ) (value_min value_max : ℚ) : List ℚ :=
  u.map (fun r => (value_max - value_min) * r + value_min)

/-- The argument assembly of solutions.py lines 88-90:
`arg = []; for param in params: arg.append(param[i])`.  A `none` result
is Python's `IndexError` when some axis has fewer than `i + 1` samples. -/
def getArg (params : List (List ℚ)) (i : ℕ) : Option (List ℚ) :=
  params.mapM (fun p => p.get? i)

/-- The trace append of solutions.py line 96:
`best_points.append((arg[0], arg[1], calculated_value))`.  The first two
coordinates are indexed unconditionally, so an argument vector with
fewer than two coordinates is an `IndexError` (`none`). -/
def mkEntry (arg : List ℚ) (v : FVal) : Option (ℚ × ℚ × FVal) :=
  match arg with
  | a :: b :: _ => some (a, b, v)
  | _ => none

/-- The search loop of solutions.py lines 84-96, recursing over the list
of remaining indices `is` with accumulators `best` (`best_value`) and
`trace` (`best_points`).  Each step assembles the candidate, evaluates
`fnc`, and on strict improvement updates the best value and appends the
`(arg[0], arg[1], value)` entry. -/
def solveLoop (fnc : List ℚ → FVal) (params : List (List ℚ)) :
    List ℕ → FVal → List (ℚ × ℚ × FVal) → Option (FVal × List (ℚ × ℚ × FVal))
  | [], best, trace => some (best, trace)
  | i :: is, best, trace =>
    match getArg params i with
    | none => none
    | some arg =>
      let v := fnc arg
      if FVal.lt v best then
        match mkEntry arg v with
        | none => none
        | some e => solveLoop fnc params is v (trace ++ [e])
      else
        solveLoop fnc params is best trace

/-- `BlindSearchSolution.solve` run on an explicitly supplied axis-major
sample table `params` (bypassing random generation): the loop over
`range(point_count)` starting from `best_value = np.inf` and an empty
`best_points`.  Returns the final best value together with the trace. -/
def solveWith (point_count : ℕ) (params : List (List ℚ))
    (fnc : List ℚ → FVal) : Option (FVal × List (ℚ × ℚ × FVal)) :=
  solveLoop fnc params (List.range point_count) FVal.inf []

/-- The sample-generation loop of solutions.py lines 80-81: one
`random_range` call per axis; `draws x` is the output of the `x`-th
`np.random.rand(point_count)` call. -/
def genParams (dimension : ℕ) (lower_bound upper_bound : ℚ)
    (draws : ℕ → List ℚ) : List (List ℚ) :=
  (List.range dimension).map (fun x => random_range (draws x) lower_bound upper_bound)

/-- Full `BlindSearchSolution.solve`: generate the axis-major samples,
then run the search loop.  (The `visualize` call on line 99 is plotting
I/O and does not affect the computed values.) -/
def solve (dimension point_count : ℕ) (lower_bound upper_bound : ℚ)
    (draws : ℕ → List ℚ) (fnc : List ℚ → FVal) :
    Option (FVal × List (ℚ × ℚ × FVal)) :=
  solveWith point_count (genParams dimension lower_bound upper_bound draws) fnc

/-- The `value` components of a trace, in append order. -/
def traceVals (t : List (ℚ × ℚ × FVal)) : List FVal :=
  t.map (fun e => e.2.2)

/-- The running state of solutions.py lines 84-96: the best value is
never NaN, the recorded trace values strictly decrease in append order,
the trace is empty exactly as long as `best_value` still is `np.inf`,
and otherwise the last trace value is the current best. -/
def LoopInv (best : FVal) (trace : List (ℚ × ℚ × FVal)) : Prop :=
  best ≠ FVal.nan ∧
  List.Chain' (fun a b => FVal.lt b a = true) (traceVals trace) ∧
  (trace = [] → best = FVal.inf) ∧
  (trace ≠ [] → (traceVals trace).getLast? = some best)

/-- The object state set up by `Solution.__init__` (solutions.py lines
9-18): the dimension and the two bounds, as passed positionally.  (The
all-zeros `parameters` vector of line 19 is never read by `solve` and is
omitted.) -/
structure Solution where
  dimension : ℕ
  lower_bound : ℚ
  upper_bound : ℚ

/-- Modelled from the spec: the sphere objective — "sum of squares of
coordinates" (glossary) — since `functions.py` is imported by main.py
but is not among the sources. -/
def sphere (xs : List ℚ) : FVal :=
  FVal.fin ((xs.map (fun x => x * x)).sum)

/-- main.py line 10: `BlindSearchSolution(2, 10, -10)`.  The positional
arguments bind `dimension = 2`, `lower_bound = 10`, `upper_bound = -10`. -/
def mainSolution : Solution :=
  { dimension := 2, lower_bound := 10, upper_bound := -10 }

/-- main.py line 11: `solution.solve(20000, sphere)` — the sample count. -/
def mainPointCount : ℕ := 20000

/-- main.py line 11: the objective passed to `solve`. -/
def mainObjective : List ℚ → FVal := sphere

/-- Modelled from the spec: the identity objective of the §8
dimension-1 scenario — the value of a one-coordinate candidate is that
coordinate. -/
def identity1 : List ℚ → FVal
  | [x] => FVal.fin x
  | _ => FVal.nan

/-- Modelled from the spec (§4.1 steps 2-4): the Sampler/Tracker
algorithm on an explicit candidate sequence, with trace entries keeping
the full coordinate vector (`EvaluatedPoint`). -/
def specRun (fnc : List ℚ → FVal) :
    List (List ℚ) → FVal → List (List ℚ × FVal) → FVal × List (List ℚ × FVal)
  | [], best, trace => (best, trace)
  | c :: cs, best, trace =>
    let v := fnc c
    if FVal.lt v best then specRun fnc cs v (trace ++ [(c, v)])
    else specRun fnc cs best trace

/-- Modelled from the spec (§4.1): run the Sampler/Tracker from
`bestValue = +infinity` and an empty trace. -/
def specRunResult (candidates : List (List ℚ)) (fnc : List ℚ → FVal) :
    FVal × List (List ℚ × FVal) :=
  specRun fnc candidates FVal.inf []

/-- A concrete two-dimensional objective used to instantiate theorems:
the second coordinate of the candidate. -/
def secondCoord : List ℚ → FVal
  | _ :: b :: _ => FVal.fin b
  | _ => FVal.nan

/-! ### Order facts about the IEEE comparison model -/

lemma FVal.lt_nan_left (b : FVal) : FVal.lt FVal.nan b = false := by
  cases b <;> rfl

lemma FVal.lt_nan_right (a : FVal) : FVal.lt a FVal.nan = false := by
  cases a <;> rfl

lemma FVal.lt_irrefl' (a : FVal) : FVal.lt a a = false := by
  cases a <;> simp [FVal.lt]

lemma FVal.ne_nan_of_lt {a b : FVal} (h : FVal.lt a b = true) :
    a ≠ FVal.nan ∧ b ≠ FVal.nan := by
  cases a <;> cases b <;> simp_all [FVal.lt]

lemma FVal.ne_nan_of_le {a b : FVal} (h : FVal.le a b = true) :
    a ≠ FVal.nan ∧ b ≠ FVal.nan := by
  cases a <;> cases b <;> simp_all [FVal.le]

lemma FVal.le_refl' {a : FVal} (h : a ≠ FVal.nan) : FVal.le a a = true := by
  cases a <;> simp_all [FVal.le]

lemma FVal.le_of_lt {a b : FVal} (h : FVal.lt a b = true) :
    FVal.le a b = true := by
  cases a <;> cases b <;> simp_all [FVal.lt, FVal.le]
  exact h.le

lemma FVal.le_trans' {a b c : FVal} (hab : FVal.le a b = true)
    (hbc : FVal.le b c = true) : FVal.le a c = true := by
  cases a <;> cases b <;> cases c <;> simp_all [FVal.le]
  exact hab.trans hbc

lemma FVal.not_lt_of_le {a b : FVal} (h : FVal.le a b = true) :
    FVal.lt b a = false := by
  cases a <;> cases b <;> simp_all [FVal.lt, FVal.le]

lemma FVal.le_of_not_lt {a b : FVal} (ha : a ≠ FVal.nan) (hb : b ≠ FVal.nan)
    (h : FVal.lt a b = false) : FVal.le b a = true := by
  cases a <;> cases b <;> simp_all [FVal.lt, FVal.le]

/-! ### Invariants of the search loop -/

lemma loopInv_init : LoopInv FVal.inf [] := by
  refine ⟨by simp, by simp [traceVals], fun _ => rfl, fun h => absurd rfl h⟩

lemma loopInv_append {best v : FVal} {trace : List (ℚ × ℚ × FVal)} {a b : ℚ}
    (hInv : LoopInv best trace) (himp : FVal.lt v best = true) :
    LoopInv v (trace ++ [(a, b, v)]) := by
  obtain ⟨hnan, hchain, hemp, hlast⟩ := hInv
  refine ⟨(FVal.ne_nan_of_lt himp).1, ?_, ?_, ?_⟩
  · have : traceVals (trace ++ [(a, b, v)]) = traceVals trace ++ [v] := by
      simp [traceVals]
    rw [this, List.chain'_append]
    refine ⟨hchain, List.chain'_singleton v, ?_⟩
    intro x hx y hy
    have htr : trace ≠ [] := by
      intro hc
      rw [hc] at hx
      simp [traceVals] at hx
    rw [hlast htr] at hx
    simp at hx hy
    subst hx
    subst hy
    exact himp
  · intro hc
    exact absurd hc (by simp)
  · intro _
    have : traceVals (trace ++ [(a, b, v)]) = traceVals trace ++ [v] := by
      simp [traceVals]
    rw [this, List.getLast?_concat]

lemma solveLoop_inv {fnc : List ℚ → FVal} {params : List (List ℚ)} :
    ∀ (is : List ℕ) (best : FVal) (trace : List (ℚ × ℚ × FVal))
      (bF : FVal) (tF : List (ℚ × ℚ × FVal)),
      LoopInv best trace →
      solveLoop fnc params is best trace = some (bF, tF) →
      LoopInv bF tF := by
  intro is
  induction is with
  | nil =>
    intro best trace bF tF hInv h
    simp [solveLoop] at h
    rw [← h.1, ← h.2]
    exact hInv
  | cons i is ih =>
    intro best trace bF tF hInv h
    rw [solveLoop] at h
    cases harg : getArg params i with
    | none => rw [harg] at h; exact absurd h (by simp)
    | some arg =>
      rw [harg] at h
      simp only at h
      by_cases himp : FVal.lt (fnc arg) best = true
      · rw [if_pos himp] at h
        cases hmk : mkEntry arg (fnc arg) with
        | none => rw [hmk] at h; exact absurd h (by simp)
        | some e =>
          rw [hmk] at h
          obtain ⟨a, b, rest, hab⟩ : ∃ a b rest, arg = a :: b :: rest := by
            cases arg with
            | nil => simp [mkEntry] at hmk
            | cons a tl =>
              cases tl with
              | nil => simp [mkEntry] at hmk
              | cons b rest => exact ⟨a, b, rest, rfl⟩
          subst hab
          have he : e = (a, b, fnc (a :: b :: rest)) := by
            simpa [mkEntry] using hmk.symm
          rw [he] at h
          exact ih (fnc (a :: b :: rest)) (trace ++ [(a, b, fnc (a :: b :: rest))]) bF tF
            (loopInv_append hInv himp) h
      · rw [if_neg himp] at h
        exact ih best trace bF tF hInv h

lemma solveLoop_best_le {fnc : List ℚ → FVal} {params : List (List ℚ)} :
    ∀ (is : List ℕ) (best : FVal) (trace : List (ℚ × ℚ × FVal))
      (bF : FVal) (tF : List (ℚ × ℚ × FVal)),
      best ≠ FVal.nan →
      solveLoop fnc params is best trace = some (bF, tF) →
      FVal.le bF best = true ∧
        ∀ i ∈ is, ∀ arg, getArg params i = some arg →
          FVal.lt (fnc arg) bF = false := by
  intro is
  induction is with
  | nil =>
    intro best trace bF tF hnan h
    simp [solveLoop] at h
    rw [← h.1]
    exact ⟨FVal.le_refl' hnan, by simp⟩
  | cons i is ih =>
    intro best trace bF tF hnan h
    rw [solveLoop] at h
    cases harg : getArg params i with
    | none => rw [harg] at h; exact absurd h (by simp)
    | some arg =>
      rw [harg] at h
      simp only at h
      by_cases himp : FVal.lt (fnc arg) best = true
      · rw [if_pos himp] at h
        cases hmk : mkEntry arg (fnc arg) with
        | none => rw [hmk] at h; exact absurd h (by simp)
        | some e =>
          rw [hmk] at h
          obtain ⟨hle, htail⟩ :=
            ih (fnc arg) (trace ++ [e]) bF tF (FVal.ne_nan_of_lt himp).1 h
          refine ⟨FVal.le_trans' hle (FVal.le_of_lt himp), ?_⟩
          intro j hj arg' harg'
          rcases List.mem_cons.mp hj with hji | hjs
          · rw [hji] at harg'
            rw [harg] at harg'
            have : arg' = arg := by simpa using harg'.symm
            rw [this]
            exact FVal.not_lt_of_le hle
          · exact htail j hjs arg' harg'
      · rw [if_neg himp] at h
        obtain ⟨hle, htail⟩ := ih best trace bF tF hnan h
        refine ⟨hle, ?_⟩
        intro j hj arg' harg'
        rcases List.mem_cons.mp hj with hji | hjs
        · rw [hji] at harg'
          rw [harg] at harg'
          have harg'' : arg' = arg := by simpa using harg'.symm
          rw [harg'']
          by_cases hn : fnc arg = FVal.nan
          · rw [hn]
            exact FVal.lt_nan_left bF
          · have h1 : FVal.le best (fnc arg) = true :=
              FVal.le_of_not_lt hn hnan (Bool.eq_false_iff.mpr himp)
            exact FVal.not_lt_of_le (FVal.le_trans' hle h1)
        · exact htail j hjs arg' harg'

lemma solveLoop_no_improve {fnc : List ℚ → FVal} {params : List (List ℚ)} :
    ∀ (is : List ℕ) (best : FVal) (trace : List (ℚ × ℚ × FVal)),
      (∀ i ∈ is, ∃ arg, getArg params i = some arg ∧
        FVal.lt (fnc arg) best = false) →
      solveLoop fnc params is best trace = some (best, trace) := by
  intro is
  induction is with
  | nil => intro best trace _; simp [solveLoop]
  | cons i is ih =>
    intro best trace h
    obtain ⟨arg, harg, hni⟩ := h i (by simp)
    rw [solveLoop, harg]
    simp only [hni, if_false, Bool.false_eq_true]
    exact ih best trace (fun j hj => h j (List.mem_cons_of_mem i hj))

lemma solveLoop_congr {fnc₁ fnc₂ : List ℚ → FVal}
    {params₁ params₂ : List (List ℚ)} :
    ∀ (is : List ℕ) (best : FVal) (trace : List (ℚ × ℚ × FVal)),
      (∀ i ∈ is, getArg params₁ i = getArg params₂ i) →
      (∀ i ∈ is, ∀ arg, getArg params₁ i = some arg → fnc₁ arg = fnc₂ arg) →
      solveLoop fnc₁ params₁ is best trace =
        solveLoop fnc₂ params₂ is best trace := by
  intro is
  induction is with
  | nil => intro best trace _ _; simp [solveLoop]
  | cons i is ih =>
    intro best trace hp hf
    rw [solveLoop, solveLoop, ← hp i (by simp)]
    cases harg : getArg params₁ i with
    | none => rfl
    | some arg =>
      simp only
      rw [← hf i (by simp) arg harg]
      have hrestp : ∀ j ∈ is, getArg params₁ j = getArg params₂ j :=
        fun j hj => hp j (List.mem_cons_of_mem i hj)
      have hrestf : ∀ j ∈ is, ∀ a, getArg params₁ j = some a → fnc₁ a = fnc₂ a :=
        fun j hj => hf j (List.mem_cons_of_mem i hj)
      by_cases himp : FVal.lt (fnc₁ arg) best = true
      · rw [if_pos himp, if_pos himp]
        cases hmk : mkEntry arg (fnc₁ arg) with
        | none => rfl
        | some e => exact ih (fnc₁ arg) (trace ++ [e]) hrestp hrestf
      · rw [if_neg himp, if_neg himp]
        exact ih best trace hrestp hrestf

lemma solveLoop_prefix {fnc : List ℚ → FVal} {params : List (List ℚ)} :
    ∀ (is : List ℕ) (best : FVal) (trace : List (ℚ × ℚ × FVal))
      (bF : FVal) (tF : List (ℚ × ℚ × FVal)),
      solveLoop fnc params is best trace = some (bF, tF) →
      trace <+: tF := by
  intro is
  induction is with
  | nil =>
    intro best trace bF tF h
    simp [solveLoop] at h
    rw [← h.2]
  | cons i is ih =>
    intro best trace bF tF h
    rw [solveLoop] at h
    cases harg : getArg params i with
    | none => rw [harg] at h; exact absurd h (by simp)
    | some arg =>
      rw [harg] at h
      simp only at h
      by_cases himp : FVal.lt (fnc arg) best = true
      · rw [if_pos himp] at h
        cases hmk : mkEntry arg (fnc arg) with
        | none => rw [hmk] at h; exact absurd h (by simp)
        | some e =>
          rw [hmk] at h
          exact (List.prefix_append trace [e]).trans
            (ih (fnc arg) (trace ++ [e]) bF tF h)
      · rw [if_neg himp] at h
        exact ih best trace bF tF h

/-! ### Claim theorems -/

/-- C1, counterexample to the claim as stated: with the valid
configuration `dimension = 2`, `sampleCount = 1` and an objective that
returns NaN, the run returns `bestValue = +infinity` while the single
evaluated candidate `[0, 0]` has value NaN, and under IEEE ordering
`+infinity <= NaN` is false — so `bestValue <= value_i` fails for that
evaluated candidate. -/
theorem bestValue_le_nan_fails :
    solveWith 1 [[0], [0]] (fun _ => FVal.nan) =
      some (FVal.inf, ([] : List (ℚ × ℚ × FVal))) ∧
    getArg [[0], [0]] 0 = some [0, 0] ∧
    FVal.le FVal.inf FVal.nan = false := by
  decide

/-- C1, amended: whenever `solve` returns, no individually evaluated
candidate has a value strictly below the returned `bestValue` (IEEE
comparison), and for every evaluated candidate whose value is not NaN,
`bestValue <= value` holds.  (The original claim fails only for NaN
values, which compare false against everything.) -/
theorem solve_best_minimal
    (n : ℕ) (params : List (List ℚ)) (fnc : List ℚ → FVal)
    (bF : FVal) (tF : List (ℚ × ℚ × FVal)) (i : ℕ) (arg : List ℚ)
    (h : solveWith n params fnc = some (bF, tF))
    (hi : i ∈ List.range n) (harg : getArg params i = some arg) :
    FVal.lt (fnc arg) bF = false ∧
      (fnc arg ≠ FVal.nan → FVal.le bF (fnc arg) = true) := by
  obtain ⟨hle, hall⟩ :=
    solveLoop_best_le (List.range n) FVal.inf [] bF tF (by simp) h
  have h1 := hall i hi arg harg
  exact ⟨h1, fun hn => FVal.le_of_not_lt hn (FVal.ne_nan_of_le hle).1 h1⟩

/-- C1 witness: in the run over candidates `[5, 6]`, `[3, 4]` with the
second-coordinate objective, `bestValue = 4` and the first candidate's
value 6 is not below it. -/
theorem solve_best_minimal_witness :
    FVal.lt (FVal.fin 6) (FVal.fin 4) = false ∧
      (FVal.fin 6 ≠ FVal.nan → FVal.le (FVal.fin 4) (FVal.fin 6) = true) :=
  solve_best_minimal 2 [[5, 3], [6, 4]] secondCoord (FVal.fin 4)
    [(5, 6, FVal.fin 6), (3, 4, FVal.fin 4)] 0 [5, 6]
    (by decide) (by decide) (by decide)

/-- C2, counterexample to the claim as stated: with the valid
configuration `dimension = 2`, `sampleCount = 1` and the constant
`+infinity` objective, the trace comes back empty — the first evaluated
point is NOT always included, because `inf < inf` is false. -/
theorem trace_empty_const_inf :
    ¬ (∀ bF tF, solveWith 1 [[0], [0]] (fun _ => FVal.inf) = some (bF, tF) →
        tF ≠ []) := by
  intro hcl
  exact hcl FVal.inf [] (by decide) rfl

/-- C2, amended: (1) for every completed run, the value sequence of the
produced trace is strictly decreasing in append order — unconditionally;
(2) the trace is non-empty — the first evaluated point is included —
provided the first evaluated value is strictly below `+infinity` (true
for every finite value; false for a NaN or `+infinity` value, which is
what the counterexample forces). -/
theorem trace_strict_decreasing :
    (∀ (n : ℕ) (params : List (List ℚ)) (fnc : List ℚ → FVal)
       (bF : FVal) (tF : List (ℚ × ℚ × FVal)),
       solveWith n params fnc = some (bF, tF) →
       List.Chain' (fun a b => FVal.lt b a = true) (traceVals tF)) ∧
    (∀ (n : ℕ) (params : List (List ℚ)) (fnc : List ℚ → FVal)
       (bF : FVal) (tF : List (ℚ × ℚ × FVal)) (arg0 : List ℚ),
       solveWith n params fnc = some (bF, tF) →
       0 < n → getArg params 0 = some arg0 →
       FVal.lt (fnc arg0) FVal.inf = true →
       tF ≠ []) := by
  constructor
  · intro n params fnc bF tF h
    exact (solveLoop_inv (List.range n) FVal.inf [] bF tF loopInv_init h).2.1
  · intro n params fnc bF tF arg0 h hn h0 himp
    obtain ⟨m, rfl⟩ : ∃ m, n = m + 1 := ⟨n - 1, (Nat.succ_pred_eq_of_pos hn).symm⟩
    rw [solveWith, List.range_succ_eq_map, solveLoop, h0] at h
    simp only [himp, if_true] at h
    cases hmk : mkEntry arg0 (fnc arg0) with
    | none => rw [hmk] at h; exact absurd h (by simp)
    | some e =>
      rw [hmk] at h
      have hpre := solveLoop_prefix ((List.range m).map Nat.succ)
        (fnc arg0) ([] ++ [e]) bF tF h
      intro hc
      rw [hc] at hpre
      simp at hpre

/-- C2 witness: the strict-decrease half applied to a run whose first
candidate has value `+infinity` and is skipped while the second, finite
one is appended (a completed run not covered by the non-emptiness
proviso); the non-emptiness half applied to the run over candidates
`[5, 6]`, `[3, 4]` with the second-coordinate objective. -/
theorem trace_strict_decreasing_witness :
    List.Chain' (fun a b => FVal.lt b a = true)
        (traceVals [(3, 4, FVal.fin 4)]) ∧
      ([(5, 6, FVal.fin 6), (3, 4, FVal.fin 4)] : List (ℚ × ℚ × FVal)) ≠ [] :=
  ⟨trace_strict_decreasing.1 2 [[0, 3], [0, 4]]
      (fun arg => match arg with
        | _ :: b :: _ => if b = 0 then FVal.inf else FVal.fin b
        | _ => FVal.nan)
      (FVal.fin 4) [(3, 4, FVal.fin 4)] (by decide),
    trace_strict_decreasing.2 2 [[5, 3], [6, 4]] secondCoord (FVal.fin 4)
      [(5, 6, FVal.fin 6), (3, 4, FVal.fin 4)] [5, 6]
      (by decide) (by decide) (by decide) (by decide)⟩

/-- C3, counterexample to the claim as stated: with the valid
configuration `dimension = 2`, `sampleCount = 1` and the constant
`+infinity` objective, the run returns `bestValue = +infinity` with an
empty trace, so `bestValue` does not equal the value of a last trace
entry (there is none). -/
theorem bestValue_last_fails_empty :
    ¬ (∀ bF tF, solveWith 1 [[1], [1]] (fun _ => FVal.inf) = some (bF, tF) →
        (traceVals tF).getLast? = some bF) := by
  intro hcl
  have := hcl FVal.inf [] (by decide)
  simp [traceVals] at this

/-- C3, amended: whenever `solve` returns, either the trace is empty and
`bestValue` is still `+infinity`, or the trace is non-empty and
`bestValue` equals the value of its last entry. -/
theorem bestValue_eq_last
    (n : ℕ) (params : List (List ℚ)) (fnc : List ℚ → FVal)
    (bF : FVal) (tF : List (ℚ × ℚ × FVal))
    (h : solveWith n params fnc = some (bF, tF)) :
    (tF = [] → bF = FVal.inf) ∧
      (tF ≠ [] → (traceVals tF).getLast? = some bF) := by
  have hinv := solveLoop_inv (List.range n) FVal.inf [] bF tF loopInv_init h
  exact ⟨hinv.2.2.1, hinv.2.2.2⟩

/-- C3 witness: in the run over candidates `[5, 6]`, `[3, 4]` with the
second-coordinate objective, the returned best value 4 is the value of
the last trace entry. -/
theorem bestValue_eq_last_witness :
    (([(5, 6, FVal.fin 6), (3, 4, FVal.fin 4)] : List (ℚ × ℚ × FVal)) = [] →
        FVal.fin 4 = FVal.inf) ∧
      (([(5, 6, FVal.fin 6), (3, 4, FVal.fin 4)] : List (ℚ × ℚ × FVal)) ≠ [] →
        (traceVals [(5, 6, FVal.fin 6), (3, 4, FVal.fin 4)]).getLast? =
          some (FVal.fin 4)) :=
  bestValue_eq_last 2 [[5, 3], [6, 4]] secondCoord (FVal.fin 4)
    [(5, 6, FVal.fin 6), (3, 4, FVal.fin 4)] (by decide)

/-- C4: on the spec's dimension-1 scenario — candidates 5, 3, 8, 1, 9
with the identity objective — the code aborts with an `IndexError`
(`none`): the very first candidate improves on `+infinity` and the trace
append of line 96 indexes `arg[1]` on a one-element argument list.  The
spec-modelled Sampler/Tracker on the same scenario produces exactly the
trace `[(5, 5), (3, 3), (1, 1)]` with best value 1 that the claim
expects, exhibiting the divergence. -/
theorem dim1_scenario_crashes :
    solveWith 5 [[5, 3, 8, 1, 9]] identity1 = none ∧
      specRunResult [[5], [3], [8], [1], [9]] identity1 =
        (FVal.fin 1,
          [([5], FVal.fin 5), ([3], FVal.fin 3), ([1], FVal.fin 1)]) := by
  decide

/-- C5, counterexample to the claim as stated: `solve` with
`point_count = 0` (and the degenerate swapped bounds 10, -10) does not
fail at all — there is no configuration validation anywhere — it
silently returns `bestValue = +infinity` with an empty trace. -/
theorem sampleCount_zero_no_failure :
    solve 2 0 10 (-10) (fun _ => []) (fun _ => FVal.fin 0) =
      some (FVal.inf, ([] : List (ℚ × ℚ × FVal))) := by
  decide

/-- C5, amended: `solve` performs no configuration validation; for any
dimension, bounds (including `lower_bound >= upper_bound`) and random
draws, `point_count = 0` silently yields `bestValue = +infinity` and an
empty trace instead of an `InvalidConfiguration` failure. -/
theorem solve_zero_samples (dimension : ℕ) (lower_bound upper_bound : ℚ)
    (draws : ℕ → List ℚ) (fnc : List ℚ → FVal) :
    solve dimension 0 lower_bound upper_bound draws fnc =
      some (FVal.inf, []) := rfl

/-- C6: what main.py line 10 actually constructs.  `BlindSearchSolution(2,
10, -10)` binds the positional parameters as `dimension = 2`,
`lower_bound = 10`, `upper_bound = -10` — the bounds are swapped relative
to the claimed `lowerBound = -10 < upperBound = 10`, so the constructed
configuration violates `lowerBound < upperBound`.  The sample count 20000
and (spec-modelled) sphere objective match the claim.  With the swapped
bounds, `random_range` can emit the value -10, strictly below the
configured `lower_bound` of 10. -/
theorem main_config_bounds_swapped :
    mainSolution.dimension = 2 ∧
      mainSolution.lower_bound = 10 ∧
      mainSolution.upper_bound = -10 ∧
      mainSolution.upper_bound < mainSolution.lower_bound ∧
      mainPointCount = 20000 ∧
      mainObjective = sphere ∧
      random_range [1] mainSolution.lower_bound mainSolution.upper_bound =
        [-10] := by
  refine ⟨rfl, rfl, rfl, by norm_num [mainSolution], rfl, rfl, ?_⟩
  norm_num [random_range, mainSolution]

/-- C7, counterexample to the claim as stated: the tie scenario is
claimed for "any candidate sequence", but with the one-coordinate
candidate sequence `[5]` and the constant objective 7 the code aborts
(`IndexError` from `arg[1]` on line 96) instead of producing a
one-element trace. -/
theorem const_objective_dim1_crashes :
    solveWith 1 [[5]] (fun _ => FVal.fin 7) = none := by
  decide

/-- C7, amended: (1) a candidate whose value equals the current best is
never appended — the step degenerates to the remaining loop with best
value and trace unchanged; (2) for a constant rational objective over
any candidate sequence whose first candidate has at least two
coordinates (which the counterexample forces), the run returns the
constant as best value and a trace of exactly one element, built from
the first candidate. -/
theorem ties_not_improving :
    (∀ (fnc : List ℚ → FVal) (params : List (List ℚ)) (i : ℕ) (is : List ℕ)
       (best : FVal) (trace : List (ℚ × ℚ × FVal)) (arg : List ℚ),
       getArg params i = some arg → fnc arg = best →
       solveLoop fnc params (i :: is) best trace =
         solveLoop fnc params is best trace) ∧
    (∀ (q : ℚ) (n : ℕ) (params : List (List ℚ)) (a b : ℚ) (rest : List ℚ),
       0 < n → getArg params 0 = some (a :: b :: rest) →
       (∀ i ∈ List.range n, (getArg params i).isSome = true) →
       solveWith n params (fun _ => FVal.fin q) =
         some (FVal.fin q, [(a, b, FVal.fin q)])) := by
  constructor
  · intro fnc params i is best trace arg harg heq
    rw [solveLoop, harg]
    simp only [heq, FVal.lt_irrefl', if_false, Bool.false_eq_true]
  · intro q n params a b rest hn h0 hall
    obtain ⟨m, rfl⟩ : ∃ m, n = m + 1 := ⟨n - 1, (Nat.succ_pred_eq_of_pos hn).symm⟩
    rw [solveWith, List.range_succ_eq_map, solveLoop, h0]
    have himp : FVal.lt (FVal.fin q) FVal.inf = true := rfl
    simp only [himp, if_true, mkEntry, List.nil_append]
    apply solveLoop_no_improve
    intro i hi
    have hmem : i ∈ List.range (m + 1) := by
      simp only [List.mem_map, List.mem_range] at hi
      obtain ⟨j, hj, rfl⟩ := hi
      simp only [List.mem_range]
      omega
    obtain ⟨arg, harg⟩ := Option.isSome_iff_exists.mp (hall i hmem)
    exact ⟨arg, harg, FVal.lt_irrefl' (FVal.fin q)⟩

/-- C7 witness: two candidates `[5, 6]`, `[3, 4]` under the constant
objective 7 — the trace is exactly the first candidate's entry and the
best value is 7; the second candidate ties and is not appended. -/
theorem ties_not_improving_witness :
    solveWith 2 [[5, 3], [6, 4]] (fun _ => FVal.fin 7) =
      some (FVal.fin 7, [(5, 6, FVal.fin 7)]) :=
  ties_not_improving.2 7 2 [[5, 3], [6, 4]] 5 6 []
    (by decide) (by decide) (by decide)

/-- C8: a candidate whose objective value is NaN never counts as
improving, at any position in the candidate sequence (the first
included, where the comparison is against `+infinity`): under the IEEE
comparison `NaN < best` is false for every `best`, so the loop step for
that candidate leaves both the best value and the trace unchanged. -/
theorem nan_never_improves
    (fnc : List ℚ → FVal) (params : List (List ℚ)) (i : ℕ) (is : List ℕ)
    (best : FVal) (trace : List (ℚ × ℚ × FVal)) (arg : List ℚ)
    (harg : getArg params i = some arg) (hnanv : fnc arg = FVal.nan) :
    solveLoop fnc params (i :: is) best trace =
      solveLoop fnc params is best trace := by
  rw [solveLoop, harg]
  simp only [hnanv, FVal.lt_nan_left, if_false, Bool.false_eq_true]

/-- C8 witness: the first (NaN-valued) candidate of a run is skipped:
the step from index 0 equals the loop with index 0 removed, best still
`+infinity` and the trace still empty. -/
theorem nan_never_improves_witness :
    solveLoop (fun _ => FVal.nan) [[0], [0]] [0] FVal.inf [] =
      solveLoop (fun _ => FVal.nan) [[0], [0]] [] FVal.inf [] :=
  nan_never_improves (fun _ => FVal.nan) [[0], [0]] 0 [] FVal.inf [] [0, 0]
    (by decide) rfl

/-- C9: `solve` on a fixed candidate sequence (bypassing random
generation) is a pure function of the candidate sequence and the
objective's values on the evaluated candidates: two invocations whose
sample tables assemble the same candidates and whose objectives agree on
every evaluated candidate produce the same best value and the same
trace. -/
theorem solve_deterministic
    (n : ℕ) (params₁ params₂ : List (List ℚ)) (fnc₁ fnc₂ : List ℚ → FVal)
    (hp : ∀ i ∈ List.range n, getArg params₁ i = getArg params₂ i)
    (hf : ∀ i ∈ List.range n, ∀ arg, getArg params₁ i = some arg →
      fnc₁ arg = fnc₂ arg) :
    solveWith n params₁ fnc₁ = solveWith n params₂ fnc₂ :=
  solveLoop_congr (List.range n) FVal.inf [] hp hf

/-- C9 witness: two syntactically different sample tables assembling the
same single candidate `[1, 2]` under the same constant objective give
identical results. -/
theorem solve_deterministic_witness :
    solveWith 1 [[1], [2]] (fun _ => FVal.fin 0) =
      solveWith 1 [[1, 7], [2, 9]] (fun _ => FVal.fin 0) :=
  solve_deterministic 1 [[1], [2]] [[1, 7], [2, 9]] (fun _ => FVal.fin 0)
    (fun _ => FVal.fin 0) (by decide) (fun i arg hi ha => rfl)

/-- C10: (1) every trace entry is exactly (first coordinate, second
coordinate, value) — all coordinates beyond the second are dropped, for
any dimension; (2) for a one-coordinate candidate (dimension 1), an
improving candidate makes the whole run abort (`IndexError` on
`arg[1]`), so `solve` cannot complete once any candidate improves. -/
theorem trace_entry_projection :
    (∀ (a b : ℚ) (rest : List ℚ) (v : FVal),
       mkEntry (a :: b :: rest) v = some (a, b, v)) ∧
    (∀ (fnc : List ℚ → FVal) (params : List (List ℚ)) (i : ℕ) (is : List ℕ)
       (best : FVal) (trace : List (ℚ × ℚ × FVal)) (x : ℚ),
       getArg params i = some [x] → FVal.lt (fnc [x]) best = true →
       solveLoop fnc params (i :: is) best trace = none) := by
  constructor
  · intro a b rest v
    rfl
  · intro fnc params i is best trace x harg himp
    rw [solveLoop, harg]
    simp only [himp, if_true, mkEntry]

/-- C10 witness: a dimension-3 entry drops the third coordinate, and a
dimension-1 run aborts on its first improving candidate. -/
theorem trace_entry_projection_witness :
    mkEntry [1, 2, 3] (FVal.fin 9) = some (1, 2, FVal.fin 9) ∧
      solveLoop (fun _ => FVal.fin 0) [[5]] [0] FVal.inf [] = none :=
  ⟨trace_entry_projection.1 1 2 [3] (FVal.fin 9),
    trace_entry_projection.2 (fun _ => FVal.fin 0) [[5]] 0 [] FVal.inf [] 5
      (by decide) (by decide)⟩
